import Mathlib

/-!
Shallow embedding of the timeline segment engine of the `cutit` video editor:
the AI-output validator/normalizer, the one-best-per-group enforcement, the
undo/redo history manager, the playhead resolver, and the split/delete
timeline operations, together with proofs of the specified properties.

Times and scores are embedded as rationals (`ℚ`); JS arrays become lists;
possibly-missing / non-numeric JSON fields become `Option`s.
-/

namespace CutIt

/-- The `TimeRange` shape from `types.ts`: `{start, end}` in seconds. -/
structure TimeRange where
  start : ℚ
  «end» : ℚ
  deriving Repr, DecidableEq

/-- The `AnalyzedSegment` shape from `types.ts`: the validated AI-segment shape. -/
structure AnalyzedSegment where
  text : String
  start : ℚ
  «end» : ℚ
  groupId : String
  score : ℚ
  isBest : Bool
  deriving Repr, DecidableEq

/-- A word of a transcript, as constructed by `generateWordsFromTranscript`. -/
structure TranscriptWord where
  id : String
  text : String
  start : ℚ
  «end» : ℚ
  isDeleted : Bool
  isFiller : Bool
  deriving Repr, DecidableEq

/-- The `TimelineSegment` shape from `types.ts`. -/
structure TimelineSegment where
  id : String
  clipId : String
  range : TimeRange
  isBest : Bool
  score : ℚ
  color : String
  name : String
  transcript : Option String
  deriving Repr, DecidableEq

/-- A raw, untrusted record handed to `validateSegments` (`segments: any[]`).
Fields are `Option`s: `none` models a missing or non-numeric
(`Number(x)` = NaN) JSON field. -/
structure RawSegment where
  text : Option String
  start : Option ℚ
  «end» : Option ℚ
  groupId : Option String
  score : Option ℚ
  isBest : Option Bool
  deriving Repr, DecidableEq

/-- JS `Number(x) || d`: a missing/non-numeric field gives NaN (falsy), and a
numeric `0` is falsy as well, so both fall back to the default `d`. -/
def numOr (x : Option ℚ) (d : ℚ) : ℚ :=
  match x with
  | none => d
  | some v => if v = 0 then d else v

/-- JS `s || d` on an optional string: `undefined` and `""` are falsy. -/
def strOr (x : Option String) (d : String) : String :=
  match x with
  | none => d
  | some s => if s = "" then d else s

/-- JS `Boolean(x)` on an optional boolean: `undefined` is falsy. -/
def boolOf (x : Option Bool) : Bool :=
  match x with
  | none => false
  | some b => b

/-- Step 1 of `validateSegments` (geminiService), for one record:
`start`/`end` parsed with default 0, swapped if inverted, clamped
(`start` into `[0, duration]`, `end` to `max (start + 0.1) (min end duration)`),
and the remaining fields coerced with defaults. -/
def parseOne (seg : RawSegment) (duration : ℚ) : AnalyzedSegment :=
  let start0 := numOr seg.start 0
  let end0 := numOr seg.«end» 0
  let start1 := if start0 > end0 then end0 else start0
  let end1 := if start0 > end0 then start0 else end0
  let start2 := max 0 (min start1 duration)
  let end2 := max (start2 + 1/10) (min end1 duration)
  { text := (strOr seg.text "")
    start := start2
    «end» := end2
    groupId := strOr seg.groupId "default"
    score := max 0 (min 100 (numOr seg.score 50))
    isBest := boolOf seg.isBest }

/-- The parse loop of `validateSegments`: each record is parsed and the
`if (end - start < 0.1) continue;` guard drops sub-minimum results. -/
def parseSegments (segs : List RawSegment) (duration : ℚ) : List AnalyzedSegment :=
  segs.filterMap (fun seg =>
    let p := parseOne seg duration
    if p.«end» - p.start < 1/10 then none else some p)

/-- The comparator `(a, b) => a.start - b.start` of `validSegments.sort`,
as the ordering it induces. -/
def startLE (a b : AnalyzedSegment) : Prop :=
  a.start ≤ b.start

instance : DecidableRel startLE :=
  fun a b => inferInstanceAs (Decidable (a.start ≤ b.start))

instance : IsTotal AnalyzedSegment startLE :=
  ⟨fun a b => le_total a.start b.start⟩

instance : IsTrans AnalyzedSegment startLE :=
  ⟨fun _ _ _ h h' => le_trans h h'⟩

/-- The call `validSegments.sort((a, b) => a.start - b.start)`: stable sort by start. -/
def sortByStart (l : List AnalyzedSegment) : List AnalyzedSegment :=
  l.insertionSort startLE

/-- Step 2 of `validateSegments`: the left-to-right overlap-fix pass; whenever
`curr.start < prev.end`, `prev.end` is pulled back to `curr.start`. Each
element's `end` is adjusted (at most once) from its immediate successor's
(never-modified) `start`, so the loop is this one-pass recursion. -/
def fixOverlaps : List AnalyzedSegment → List AnalyzedSegment
  | [] => []
  | [a] => [a]
  | a :: b :: rest =>
      { a with «end» := if b.start < a.«end» then b.start else a.«end» } ::
        fixOverlaps (b :: rest)

/-- Model of `validateSegments` from geminiService: parse/clamp/filter, sort by start,
fix overlaps. -/
def validateSegments (segs : List RawSegment) (duration : ℚ) : List AnalyzedSegment :=
  fixOverlaps (sortByStart (parseSegments segs duration))

/-! ### Properties of the parse/clamp step -/

theorem parseOne_start_nonneg (seg : RawSegment) (D : ℚ) : 0 ≤ (parseOne seg D).start :=
  le_max_left _ _

theorem parseOne_start_le (seg : RawSegment) (D : ℚ) (hD : 0 ≤ D) :
    (parseOne seg D).start ≤ D :=
  max_le hD (min_le_right _ _)

theorem parseOne_start_add_le_end (seg : RawSegment) (D : ℚ) :
    (parseOne seg D).start + 1/10 ≤ (parseOne seg D).«end» :=
  le_max_left _ _

theorem parseOne_end_le (seg : RawSegment) (D : ℚ) :
    (parseOne seg D).«end» ≤ max D ((parseOne seg D).start + 1/10) :=
  max_le (le_max_right _ _) (le_trans (min_le_right _ _) (le_max_left _ _))

/-- The minimum-duration guard `if (end - start < 0.1) continue;` never fires:
the clamp `end = max(start + 0.1, min(end, duration))` already forces
`end - start ≥ 0.1`, so the parse loop is just a map. -/
theorem parseSegments_eq_map (segs : List RawSegment) (D : ℚ) :
    parseSegments segs D = segs.map (fun seg => parseOne seg D) := by
  rw [parseSegments, ← List.filterMap_eq_map]
  congr 1
  funext seg
  have h := parseOne_start_add_le_end seg D
  have h' : ¬ (parseOne seg D).«end» - (parseOne seg D).start < 1/10 := by linarith
  simp only [if_neg h']
  rfl

theorem parseSegments_mem {segs : List RawSegment} {D : ℚ} {p : AnalyzedSegment}
    (hp : p ∈ parseSegments segs D) : ∃ seg ∈ segs, p = parseOne seg D := by
  rw [parseSegments_eq_map] at hp
  obtain ⟨seg, hseg, h⟩ := List.mem_map.mp hp
  exact ⟨seg, hseg, h.symm⟩

/-! ### Properties of the overlap-fix pass -/

theorem fixOverlaps_map_start : ∀ l : List AnalyzedSegment,
    (fixOverlaps l).map AnalyzedSegment.start = l.map AnalyzedSegment.start
  | [] => rfl
  | [_] => rfl
  | a :: b :: rest => by
      show (_ :: fixOverlaps (b :: rest)).map _ = _
      simp only [List.map_cons, fixOverlaps_map_start (b :: rest)]

theorem fixOverlaps_length (l : List AnalyzedSegment) :
    (fixOverlaps l).length = l.length := by
  have h := congrArg List.length (fixOverlaps_map_start l)
  simpa using h

theorem fixOverlaps_cons (b : AnalyzedSegment) (rest : List AnalyzedSegment) :
    ∃ e tl, fixOverlaps (b :: rest) = { b with «end» := e } :: tl := by
  cases rest with
  | nil => exact ⟨b.«end», [], rfl⟩
  | cons c r => exact ⟨_, _, rfl⟩

/-- After the overlap-fix pass, each adjacent pair satisfies
`prev.end ≤ next.start` (the pass sets `prev.end := next.start` exactly when
they overlapped). This holds for any input order. -/
theorem fixOverlaps_chain' : ∀ l : List AnalyzedSegment,
    List.Chain' (fun a b => a.«end» ≤ b.start) (fixOverlaps l)
  | [] => List.chain'_nil
  | [a] => List.chain'_singleton a
  | a :: b :: rest => by
      obtain ⟨e, tl, heq⟩ := fixOverlaps_cons b rest
      have hrec := fixOverlaps_chain' (b :: rest)
      rw [show fixOverlaps (a :: b :: rest) =
          { a with «end» := if b.start < a.«end» then b.start else a.«end» } ::
            fixOverlaps (b :: rest) from rfl, heq] at *
      refine List.chain'_cons.mpr ⟨?_, hrec⟩
      show (if b.start < a.«end» then b.start else a.«end») ≤ b.start
      by_cases hlt : b.start < a.«end»
      · simp [hlt]
      · simpa [hlt] using le_of_not_lt hlt

/-- Every output of the overlap-fix pass is an input member, possibly with its
`end` pulled back to the `start` of another input member. -/
theorem fixOverlaps_mem : ∀ (l : List AnalyzedSegment) (s' : AnalyzedSegment),
    s' ∈ fixOverlaps l → ∃ s ∈ l, s' = s ∨ ∃ t ∈ l, s' = { s with «end» := t.start }
  | [], s', h => by simp [fixOverlaps] at h
  | [a], s', h => by
      simp only [fixOverlaps, List.mem_singleton] at h
      exact ⟨a, List.mem_singleton_self a, Or.inl h⟩
  | a :: b :: rest, s', h => by
      rw [show fixOverlaps (a :: b :: rest) =
          { a with «end» := if b.start < a.«end» then b.start else a.«end» } ::
            fixOverlaps (b :: rest) from rfl] at h
      rcases List.mem_cons.mp h with h | h
      · by_cases hlt : b.start < a.«end»
        · refine ⟨a, List.mem_cons_self a _, Or.inr ⟨b, ?_, ?_⟩⟩
          · exact List.mem_cons_of_mem _ (List.mem_cons_self b _)
          · simpa [hlt] using h
        · refine ⟨a, List.mem_cons_self a _, Or.inl ?_⟩
          have ha : ({ a with «end» := a.«end» } : AnalyzedSegment) = a := rfl
          simpa [hlt, ha] using h
      · obtain ⟨s, hs, hcase⟩ := fixOverlaps_mem (b :: rest) s' h
        refine ⟨s, List.mem_cons_of_mem _ hs, ?_⟩
        rcases hcase with h1 | ⟨t, ht, h2⟩
        · exact Or.inl h1
        · exact Or.inr ⟨t, List.mem_cons_of_mem _ ht, h2⟩

theorem fixOverlaps_sorted {l : List AnalyzedSegment} (hl : List.Sorted startLE l) :
    List.Sorted startLE (fixOverlaps l) := by
  have hl' : List.Pairwise (fun a b : AnalyzedSegment => a.start ≤ b.start) l := hl
  have h1 : List.Pairwise (fun a b : ℚ => a ≤ b) (l.map AnalyzedSegment.start) :=
    List.pairwise_map.mpr hl'
  have h2 : List.Pairwise (fun a b : ℚ => a ≤ b)
      ((fixOverlaps l).map AnalyzedSegment.start) := by
    rwa [fixOverlaps_map_start]
  have h3 := List.pairwise_map.mp h2
  exact h3

/-- Sorted starts plus adjacent non-overlap give global pairwise
non-overlap. -/
theorem sorted_chain'_pairwise : ∀ {l : List AnalyzedSegment},
    List.Sorted startLE l → List.Chain' (fun a b => a.«end» ≤ b.start) l →
    List.Pairwise (fun a b => a.«end» ≤ b.start) l := by
  intro l
  induction l with
  | nil => intro _ _; exact List.Pairwise.nil
  | cons a t ih =>
    intro hs hc
    rw [List.pairwise_cons]
    cases t with
    | nil => exact ⟨by simp, List.Pairwise.nil⟩
    | cons c r =>
      have hac : a.«end» ≤ c.start := (List.chain'_cons.mp hc).1
      have hst : List.Sorted startLE (c :: r) := hs.of_cons
      refine ⟨?_, ih hst (List.chain'_cons.mp hc).2⟩
      intro b hb
      rcases List.mem_cons.mp hb with rfl | hb
      · exact hac
      · exact le_trans hac (List.rel_of_sorted_cons hst b hb)

/-- C1 (amended): for every raw AI batch and clip duration `D ≥ 0`, the list
returned by `validateSegments` is sorted by `start` ascending, no two returned
segments overlap (globally, so in particular for each adjacent pair
`prev.end ≤ next.start` after the overlap adjustment), every segment's `start`
lies in `[0, D]` and its `end` in `[0, max D (start + 0.1)]`. (The claim's
`end ≤ D` is false: the clamp `end = max(start + 0.1, min(end, D))` can push
`end` past `D`; see the counterexample.) -/
theorem validateSegments_sorted_nonoverlap_bounds (segs : List RawSegment) (D : ℚ)
    (hD : 0 ≤ D) :
    List.Sorted startLE (validateSegments segs D) ∧
    List.Pairwise (fun a b => a.«end» ≤ b.start) (validateSegments segs D) ∧
    ∀ s ∈ validateSegments segs D,
      0 ≤ s.start ∧ s.start ≤ D ∧ 0 ≤ s.«end» ∧ s.«end» ≤ max D (s.start + 1/10) := by
  have hsorted_mid : List.Sorted startLE (sortByStart (parseSegments segs D)) :=
    List.sorted_insertionSort startLE _
  have hsorted : List.Sorted startLE (validateSegments segs D) :=
    fixOverlaps_sorted hsorted_mid
  have hchain : List.Chain' (fun a b => a.«end» ≤ b.start) (validateSegments segs D) :=
    fixOverlaps_chain' _
  refine ⟨hsorted, sorted_chain'_pairwise hsorted hchain, ?_⟩
  have hmid : ∀ u ∈ sortByStart (parseSegments segs D),
      0 ≤ u.start ∧ u.start ≤ D ∧ u.start + 1/10 ≤ u.«end» ∧
        u.«end» ≤ max D (u.start + 1/10) := by
    intro u hu
    have hu' : u ∈ parseSegments segs D :=
      (List.perm_insertionSort startLE _).mem_iff.mp hu
    obtain ⟨seg, _, rfl⟩ := parseSegments_mem hu'
    exact ⟨parseOne_start_nonneg seg D, parseOne_start_le seg D hD,
      parseOne_start_add_le_end seg D, parseOne_end_le seg D⟩
  intro s hs
  obtain ⟨u, hu, hcase⟩ := fixOverlaps_mem _ s hs
  obtain ⟨h1, h2, h3, h4⟩ := hmid u hu
  rcases hcase with rfl | ⟨t, ht, rfl⟩
  · exact ⟨h1, h2, by linarith, h4⟩
  · obtain ⟨t1, t2, _, _⟩ := hmid t ht
    exact ⟨h1, h2, t1, le_trans t2 (le_max_left _ _)⟩

/-- C1 counterexample: with duration `D = 1` and the single raw record
`{start: 1, end: 2}`, `start` is clamped to `1` but the `end` clamp raises
`end` to `start + 0.1 = 1.1 > D`, so the returned segment does not lie within
`[0, D]`. -/
theorem validateSegments_bounds_cex :
    ∃ s ∈ validateSegments [⟨some "t", some 1, some 2, some "g", some 40, some false⟩] 1,
      ¬ s.«end» ≤ 1 := by
  have h : validateSegments [⟨some "t", some 1, some 2, some "g", some 40, some false⟩] 1 =
      [⟨"t", 1, 11/10, "g", 40, false⟩] := by
    norm_num [validateSegments, sortByStart, parseSegments, parseOne, fixOverlaps,
      numOr, strOr, boolOf, List.insertionSort, List.filterMap]
    decide
  rw [h]
  exact ⟨_, List.mem_singleton_self _, by norm_num⟩

/-- Witness for C1 at the spec's own concrete scenario (two overlapping
segments of group `g1`, duration 9). -/
theorem validateSegments_sorted_nonoverlap_bounds_witness :
    (0:ℚ) ≤ 9 ∧ List.Pairwise (fun a b => a.«end» ≤ b.start)
      (validateSegments [⟨some "", some 0, some 5, some "g1", some 40, some false⟩,
        ⟨some "", some 3, some 9, some "g1", some 90, some true⟩] 9) :=
  ⟨by norm_num, (validateSegments_sorted_nonoverlap_bounds _ 9 (by norm_num)).2.1⟩

/-- C6 (amended): no raw record is ever discarded: the clamp already forces
`end − start ≥ 0.1` (a sub-minimum range is enlarged, its `end` raised to
`start + 0.1`, not dropped), so the minimum-duration check is dead code and
the validator returns exactly one segment per input record; every parsed
segment has duration `≥ 0.1`s before the overlap pass. -/
theorem validateSegments_never_drops (segs : List RawSegment) (D : ℚ) :
    (validateSegments segs D).length = segs.length ∧
    ∀ p ∈ parseSegments segs D, 1/10 ≤ p.«end» - p.start := by
  constructor
  · rw [validateSegments, fixOverlaps_length, sortByStart, List.length_insertionSort,
      parseSegments_eq_map, List.length_map]
  · intro p hp
    obtain ⟨seg, _, rfl⟩ := parseSegments_mem hp
    have := parseOne_start_add_le_end seg D
    linarith

/-- C6 counterexample: the sub-minimum raw record `{start: 0, end: 0}` (range
length `0 < 0.1` after clamping into `[0, 10]`) is not discarded: the
validator returns it enlarged to `[0, 0.1]`. -/
theorem validateSegments_drops_cex :
    validateSegments [⟨some "t", some 0, some 0, some "g", some 40, some false⟩] 10 ≠ [] ∧
    validateSegments [⟨some "t", some 0, some 0, some "g", some 40, some false⟩] 10 =
      [⟨"t", 0, 1/10, "g", 40, false⟩] := by
  have h : validateSegments [⟨some "t", some 0, some 0, some "g", some 40, some false⟩] 10 =
      [⟨"t", 0, 1/10, "g", 40, false⟩] := by
    norm_num [validateSegments, sortByStart, parseSegments, parseOne, fixOverlaps,
      numOr, strOr, boolOf, List.insertionSort, List.filterMap]
    decide
  exact ⟨by rw [h]; simp, h⟩

/-- Witness for C6 at the `{start: 0, end: 0}` record. -/
theorem validateSegments_never_drops_witness :
    (validateSegments [⟨some "t", some 0, some 0, some "g", some 40, some false⟩] 10).length
        = 1 ∧
    (1:ℚ)/10 ≤ (parseOne ⟨some "t", some 0, some 0, some "g", some 40, some false⟩ 10).«end» -
        (parseOne ⟨some "t", some 0, some 0, some "g", some 40, some false⟩ 10).start :=
  ⟨(validateSegments_never_drops
      [⟨some "t", some 0, some 0, some "g", some 40, some false⟩] 10).1,
    (validateSegments_never_drops [⟨some "t", some 0, some 0, some "g", some 40, some false⟩]
      10).2 _ (by rw [parseSegments_eq_map]; exact List.mem_singleton_self _)⟩

/-- C7 (amended): per-record coercions of the validator: a missing
(non-numeric) score becomes 50, and a numeric score of `0` is falsy in JS
(`Number(0) || 50`) so it also becomes 50 rather than being preserved; any
other numeric score is clamped into `[0, 100]`; a missing (or empty) groupId
becomes `"default"`; an inverted start/end pair is swapped before clamping;
`isBest` is coerced to a boolean (missing ⇒ `false`). -/
theorem parseOne_coercions (r : RawSegment) (D : ℚ) :
    ((r.score = none ∨ r.score = some 0) → (parseOne r D).score = 50) ∧
    (∀ v, r.score = some v → v ≠ 0 → (parseOne r D).score = max 0 (min 100 v)) ∧
    ((r.groupId = none ∨ r.groupId = some "") → (parseOne r D).groupId = "default") ∧
    (∀ g, r.groupId = some g → g ≠ "" → (parseOne r D).groupId = g) ∧
    (∀ a b, r.start = some a → r.«end» = some b → b < a →
      (parseOne r D).start = max 0 (min b D) ∧
      (parseOne r D).«end» = max (max 0 (min b D) + 1/10) (min a D)) ∧
    (r.isBest = none → (parseOne r D).isBest = false) ∧
    (∀ bb, r.isBest = some bb → (parseOne r D).isBest = bb) := by
  refine ⟨?_, ?_, ?_, ?_, ?_, ?_, ?_⟩
  · rintro (h | h) <;> simp [parseOne, numOr, h] <;> norm_num
  · intro v hv hv0
    simp [parseOne, numOr, hv, hv0]
  · rintro (h | h) <;> simp [parseOne, strOr, h]
  · intro g hg hg0
    simp [parseOne, strOr, hg, hg0]
  · intro a b ha hb hba
    have hnum : ∀ x : ℚ, numOr (some x) 0 = x := by
      intro x
      by_cases hx : x = 0 <;> simp [numOr, hx]
    constructor <;> simp [parseOne, ha, hb, hnum, hba, not_lt_of_lt hba]
  · intro h
    simp [parseOne, boolOf, h]
  · intro bb hbb
    simp [parseOne, boolOf, hbb]

/-- C7 counterexample: a valid input score of `0` is not preserved: the
validator turns it into the default 50. -/
theorem parseOne_score_zero_cex :
    (validateSegments [⟨some "t", some 0, some 1, some "g", some 0, some false⟩] 10).map
        AnalyzedSegment.score = [50] ∧ (50:ℚ) ≠ 0 := by
  constructor
  · norm_num [validateSegments, sortByStart, parseSegments, parseOne, fixOverlaps,
      numOr, strOr, boolOf, List.insertionSort, List.filterMap]
  · norm_num

/-- Witness for C7: a record with missing score, groupId and isBest gets the
defaults; an inverted pair `(2, 1)` is swapped. -/
theorem parseOne_coercions_witness :
    (parseOne ⟨some "t", some 2, some 1, none, none, none⟩ 10).score = 50 ∧
    (parseOne ⟨some "t", some 2, some 1, none, none, none⟩ 10).groupId = "default" ∧
    (parseOne ⟨some "t", some 2, some 1, none, none, none⟩ 10).start = max 0 (min 1 10) :=
  ⟨(parseOne_coercions _ 10).1 (Or.inl rfl),
    (parseOne_coercions _ 10).2.2.1 (Or.inl rfl),
    ((parseOne_coercions _ 10).2.2.2.2.1 2 1 rfl rfl (by norm_num)).1⟩

/-! ### `enforceOneBestPerGroup` (geminiService) -/

/-- The `groups[seg.groupId]` member list: segments of group `g` in batch
order (JS builds the record by one `forEach` push per segment). -/
def groupMembers (l : List AnalyzedSegment) (g : String) : List AnalyzedSegment :=
  l.filter (fun s => s.groupId = g)

/-- The `forEach` scan of `enforceOneBestPerGroup` locating the best index:
state `(bestScore, bestIdx)` starts at `(-1, 0)` and is replaced whenever
`seg.score > bestScore` (strict, so the first maximum wins). -/
def bestLoop : List AnalyzedSegment → ℕ → ℚ × ℕ → ℚ × ℕ
  | [], _, st => st
  | seg :: rest, idx, st =>
      bestLoop rest (idx + 1) (if seg.score > st.1 then (seg.score, idx) else st)

/-- The best index chosen for a group list. -/
def bestIdxOf (grp : List AnalyzedSegment) : ℕ :=
  (bestLoop grp 0 (-1, 0)).2

/-- The in-place mutation performed on one segment: groups with at most one
member are left alone; in larger groups `seg.isBest = (idx === bestIdx)`,
where `k` is the segment's index within its group. -/
def markGroup (l : List AnalyzedSegment) (s : AnalyzedSegment) (k : ℕ) : AnalyzedSegment :=
  let grp := groupMembers l s.groupId
  if grp.length ≤ 1 then s
  else { s with isBest := k = bestIdxOf grp }

/-- Recursion over the batch carrying, per group id, how many members were
already passed (= the next member's index within its group). -/
def enforceGo (l : List AnalyzedSegment) : List AnalyzedSegment → (String → ℕ) →
    List AnalyzedSegment
  | [], _ => []
  | s :: rest, seen =>
      markGroup l s (seen s.groupId) ::
        enforceGo l rest (fun g => if g = s.groupId then seen g + 1 else seen g)

/-- Model of `enforceOneBestPerGroup` from geminiService: the returned list is the
input list with every member of a `≥ 2`-sized group re-marked. -/
def enforceOneBestPerGroup (l : List AnalyzedSegment) : List AnalyzedSegment :=
  enforceGo l l (fun _ => 0)

/-- Marking a group member list starting at within-group index `k`. -/
def markSeq (l : List AnalyzedSegment) : ℕ → List AnalyzedSegment → List AnalyzedSegment
  | _, [] => []
  | k, s :: t => markGroup l s k :: markSeq l (k + 1) t

theorem markGroup_groupId (l : List AnalyzedSegment) (s : AnalyzedSegment) (k : ℕ) :
    (markGroup l s k).groupId = s.groupId := by
  rw [markGroup]
  split <;> rfl

/-- Filtering the enforcement output down to one group marks that group's
member list with consecutive within-group indices. -/
theorem enforceGo_filter (l : List AnalyzedSegment) (g : String) :
    ∀ (rest : List AnalyzedSegment) (seen : String → ℕ),
      (enforceGo l rest seen).filter (fun s => s.groupId = g) =
        markSeq l (seen g) (rest.filter (fun s => s.groupId = g)) := by
  intro rest
  induction rest with
  | nil => intro seen; rfl
  | cons s t ih =>
    intro seen
    by_cases hg : s.groupId = g
    · have h1 : (markGroup l s (seen s.groupId)).groupId = g := by
        rw [markGroup_groupId, hg]
      simp only [enforceGo]
      rw [List.filter_cons_of_pos (by simp [h1]), List.filter_cons_of_pos (by simp [hg])]
      simp only [markSeq]
      rw [ih]
      rw [hg]
      have : (if g = s.groupId then seen g + 1 else seen g) = seen g + 1 := by
        simp [hg.symm]
      simp [this, hg]
    · have h1 : ¬ (markGroup l s (seen s.groupId)).groupId = g := by
        rw [markGroup_groupId]; exact hg
      simp only [enforceGo]
      rw [List.filter_cons_of_neg (by simp [h1]), List.filter_cons_of_neg (by simp [hg])]
      rw [ih]
      rw [if_neg (fun h => hg h.symm)]

theorem markSeq_length (l : List AnalyzedSegment) :
    ∀ (t : List AnalyzedSegment) (k : ℕ), (markSeq l k t).length = t.length
  | [], _ => rfl
  | s :: t, k => by
      simp only [markSeq, List.length_cons, markSeq_length l t]

theorem markSeq_get (l : List AnalyzedSegment) :
    ∀ (t : List AnalyzedSegment) (k i : ℕ) (hi : i < t.length)
      (hi' : i < (markSeq l k t).length),
      (markSeq l k t).get ⟨i, hi'⟩ = markGroup l (t.get ⟨i, hi⟩) (k + i)
  | s :: t, k, 0, _, _ => by simp [markSeq]
  | s :: t, k, i + 1, hi, hi' => by
      simp only [markSeq]
      have hti : i < t.length := Nat.lt_of_succ_lt_succ hi
      have hti' : i < (markSeq l (k + 1) t).length := by
        rw [markSeq_length]; exact hti
      have := markSeq_get l t (k + 1) i hti hti'
      simp only [List.get_cons_succ]
      rw [this]
      ring_nf

/-- Specification of the best-index scan: the final score is an upper bound of
the initial score and all scanned scores, and either nothing beat the initial
score (state unchanged) or the recorded index is the offset of the first
element attaining the final score. -/
theorem bestLoop_spec : ∀ (rest : List AnalyzedSegment) (idx : ℕ) (bs : ℚ) (bi : ℕ),
    bs ≤ (bestLoop rest idx (bs, bi)).1 ∧
    (∀ s ∈ rest, s.score ≤ (bestLoop rest idx (bs, bi)).1) ∧
    (((bestLoop rest idx (bs, bi)).1 = bs ∧ (bestLoop rest idx (bs, bi)).2 = bi) ∨
      (bs < (bestLoop rest idx (bs, bi)).1 ∧
        ∃ k, ∃ hk : k < rest.length, (bestLoop rest idx (bs, bi)).2 = idx + k ∧
          (rest.get ⟨k, hk⟩).score = (bestLoop rest idx (bs, bi)).1 ∧
          ∀ j (hj : j < k),
            (rest.get ⟨j, lt_trans hj hk⟩).score < (bestLoop rest idx (bs, bi)).1))
  | [], idx, bs, bi => by
      refine ⟨le_refl _, ?_, Or.inl ⟨rfl, rfl⟩⟩
      intro s hs
      simp at hs
  | s :: t, idx, bs, bi => by
      by_cases h : s.score > bs
      · simp only [bestLoop, if_pos h]
        obtain ⟨ih1, ih2, ih3⟩ := bestLoop_spec t (idx + 1) s.score idx
        refine ⟨le_of_lt (lt_of_lt_of_le h ih1), ?_, Or.inr ⟨lt_of_lt_of_le h ih1, ?_⟩⟩
        · intro x hx
          rcases List.mem_cons.mp hx with rfl | hx
          · exact ih1
          · exact ih2 x hx
        · rcases ih3 with ⟨he, hi⟩ | ⟨hlt, k, hk, hidx, hsc, hfirst⟩
          · refine ⟨0, Nat.succ_pos _, by rw [hi, Nat.add_zero], ?_, ?_⟩
            · simpa using he.symm
            · intro j hj
              exact absurd hj (Nat.not_lt_zero j)
          · refine ⟨k + 1, Nat.succ_lt_succ hk, by rw [hidx]; ring, ?_, ?_⟩
            · simpa using hsc
            · intro j hj
              cases j with
              | zero => simpa using hlt
              | succ j' =>
                  have := hfirst j' (Nat.lt_of_succ_lt_succ hj)
                  simpa using this
      · simp only [bestLoop, if_neg h]
        obtain ⟨ih1, ih2, ih3⟩ := bestLoop_spec t (idx + 1) bs bi
        have hsb : s.score ≤ bs := le_of_not_lt h
        refine ⟨ih1, ?_, ?_⟩
        · intro x hx
          rcases List.mem_cons.mp hx with rfl | hx
          · exact le_trans hsb ih1
          · exact ih2 x hx
        · rcases ih3 with ⟨he, hi⟩ | ⟨hlt, k, hk, hidx, hsc, hfirst⟩
          · exact Or.inl ⟨he, hi⟩
          · refine Or.inr ⟨hlt, k + 1, Nat.succ_lt_succ hk, by rw [hidx]; ring, ?_, ?_⟩
            · simpa using hsc
            · intro j hj
              cases j with
              | zero => simpa using lt_of_le_of_lt hsb hlt
              | succ j' =>
                  have := hfirst j' (Nat.lt_of_succ_lt_succ hj)
                  simpa using this

/-- C2 (confirmed): in a validated batch (all scores are nonnegative — the
validator clamps them into `[0, 100]`), for every group with at least two
members, after `enforceOneBestPerGroup` exactly one member of the group has
`isBest = true` (whatever the AI supplied), and it is the first member
attaining the maximum score of the group. -/
theorem enforceOneBestPerGroup_one_best (l : List AnalyzedSegment)
    (hs : ∀ s ∈ l, 0 ≤ s.score) (g : String)
    (h2 : 2 ≤ (groupMembers l g).length) :
    ∃ k, ∃ hk : k < (groupMembers l g).length,
      (∀ i (hi : i < (groupMembers (enforceOneBestPerGroup l) g).length),
        ((groupMembers (enforceOneBestPerGroup l) g).get ⟨i, hi⟩).isBest = true ↔ i = k) ∧
      (∀ j (hj : j < (groupMembers l g).length),
        ((groupMembers l g).get ⟨j, hj⟩).score ≤
          ((groupMembers l g).get ⟨k, hk⟩).score) ∧
      (∀ j (hj : j < k),
        ((groupMembers l g).get ⟨j, lt_trans hj hk⟩).score <
          ((groupMembers l g).get ⟨k, hk⟩).score) := by
  have hne : groupMembers l g ≠ [] := by
    intro h
    rw [h] at h2
    simp at h2
  have hsg : ∀ s ∈ groupMembers l g, 0 ≤ s.score := by
    intro s hs'
    exact hs s (List.mem_of_mem_filter hs')
  obtain ⟨h1, hmax, h3⟩ := bestLoop_spec (groupMembers l g) 0 (-1) 0
  rcases h3 with ⟨he, _⟩ | ⟨hlt, k, hk, hidx, hsc, hfirst⟩
  · exfalso
    obtain ⟨s, hsmem⟩ := List.exists_mem_of_ne_nil _ hne
    have hub := hmax s hsmem
    have hnn := hsg s hsmem
    rw [he] at hub
    linarith
  · have hbest : bestIdxOf (groupMembers l g) = k := by
      rw [bestIdxOf, hidx, Nat.zero_add]
    have hfilter : groupMembers (enforceOneBestPerGroup l) g =
        markSeq l 0 (groupMembers l g) := by
      rw [groupMembers, enforceOneBestPerGroup, enforceGo_filter l g l (fun _ => 0)]
      rfl
    refine ⟨k, hk, ?_, ?_, ?_⟩
    · intro i hi
      have hi2 : i < (groupMembers l g).length := by
        rw [hfilter, markSeq_length] at hi
        exact hi
      have hget : (groupMembers (enforceOneBestPerGroup l) g).get ⟨i, hi⟩ =
          markGroup l ((groupMembers l g).get ⟨i, hi2⟩) (0 + i) := by
        rw [List.get_of_eq hfilter]
        exact markSeq_get l (groupMembers l g) 0 i hi2 _
      have hmem : (groupMembers l g).get ⟨i, hi2⟩ ∈ groupMembers l g := List.get_mem _ _ _
      have hgid : ((groupMembers l g).get ⟨i, hi2⟩).groupId = g := by
        have := List.mem_filter.mp hmem
        simpa using this.2
      rw [hget, markGroup, hgid]
      have hn1 : ¬ (groupMembers l g).length ≤ 1 := by omega
      simp only [if_neg hn1, Nat.zero_add, hbest]
      simp [decide_eq_true_iff]
    · intro j hj
      have := hmax _ (List.get_mem (groupMembers l g) j hj)
      rw [hsc]
      exact this
    · intro j hj
      have := hfirst j hj
      rw [hsc]
      exact this


/-- A concrete two-member batch of group `g1` where the AI wrongly marked the
lower-scored take as best. -/
def exampleBatch : List AnalyzedSegment :=
  [⟨"a", 0, 3, "g1", 40, true⟩, ⟨"b", 3, 9, "g1", 90, false⟩]

/-- Witness for C2 at `exampleBatch`. -/
theorem enforceOneBestPerGroup_one_best_witness :
    ∃ k, ∃ hk : k < (groupMembers exampleBatch "g1").length,
      (∀ i (hi : i < (groupMembers (enforceOneBestPerGroup exampleBatch) "g1").length),
        ((groupMembers (enforceOneBestPerGroup exampleBatch) "g1").get ⟨i, hi⟩).isBest = true
          ↔ i = k) ∧
      (∀ j (hj : j < (groupMembers exampleBatch "g1").length),
        ((groupMembers exampleBatch "g1").get ⟨j, hj⟩).score ≤
          ((groupMembers exampleBatch "g1").get ⟨k, hk⟩).score) ∧
      (∀ j (hj : j < k),
        ((groupMembers exampleBatch "g1").get ⟨j, lt_trans hj hk⟩).score <
          ((groupMembers exampleBatch "g1").get ⟨k, hk⟩).score) :=
  enforceOneBestPerGroup_one_best exampleBatch
    (by
      intro s hs
      simp only [exampleBatch, List.mem_cons, List.not_mem_nil, or_false] at hs
      rcases hs with rfl | rfl <;> norm_num)
    "g1"
    (by simp [groupMembers, exampleBatch])

/-! ### The history manager (`useTimelineHistory.ts`) -/

/-- The `HistoryState` of `useTimelineHistory.ts`. -/
structure HistoryState where
  past : List (List TimelineSegment)
  present : List TimelineSegment
  future : List (List TimelineSegment)
  deriving Repr, DecidableEq

/-- Model of `pushState` / `setSegments` of the hook (with the updater already applied
to the current `present`): `past: [...past, present], present: newState,
future: []`. -/
def pushState (st : HistoryState) (newState : List TimelineSegment) : HistoryState :=
  { past := st.past ++ [st.present], present := newState, future := [] }

/-- Model of `undo` of the hook: no-op when `past` is empty; otherwise the last `past`
entry becomes `present` and the old `present` is prepended to `future`. -/
def undo (st : HistoryState) : HistoryState :=
  match st.past.getLast? with
  | none => st
  | some previous =>
      { past := st.past.dropLast, present := previous, future := st.present :: st.future }

/-- Model of `redo` of the hook: no-op when `future` is empty; otherwise the first
`future` entry becomes `present` and the old `present` is appended to
`past`. -/
def redo (st : HistoryState) : HistoryState :=
  match st.future with
  | [] => st
  | next :: newFuture =>
      { past := st.past ++ [st.present], present := next, future := newFuture }

/-- A chain of mutations, each applied through the hook's setter. -/
def applySets (st : HistoryState) (xs : List (List TimelineSegment)) : HistoryState :=
  xs.foldl pushState st

theorem applySets_cons (st : HistoryState) (x : List TimelineSegment)
    (xs : List (List TimelineSegment)) :
    applySets st (x :: xs) = applySets (pushState st x) xs := rfl

/-- Undoing as many times as there were mutations recovers the pre-mutation
state, with all the mutated values stored (oldest first) in `future`. -/
theorem undo_applySets : ∀ (xs : List (List TimelineSegment)), xs ≠ [] →
    ∀ (p : List (List TimelineSegment)) (c : List TimelineSegment)
      (f : List (List TimelineSegment)),
      undo^[xs.length] (applySets ⟨p, c, f⟩ xs) = ⟨p, c, xs⟩
  | [], h => absurd rfl h
  | x :: xs, _ => by
      intro p c f
      rw [applySets_cons]
      rw [show pushState ⟨p, c, f⟩ x = (⟨p ++ [c], x, []⟩ : HistoryState) from rfl]
      cases xs with
      | nil =>
          show undo^[1] (applySets ⟨p ++ [c], x, []⟩ []) = _
          simp only [Function.iterate_one, applySets, List.foldl_nil]
          rw [undo]
          simp [List.getLast?_concat, List.dropLast_concat]
      | cons y ys =>
          rw [List.length_cons, Function.iterate_succ_apply']
          rw [undo_applySets (y :: ys) (List.cons_ne_nil y ys) (p ++ [c]) x []]
          rw [undo]
          simp [List.getLast?_concat, List.dropLast_concat]

/-- Redoing as many times as there are stored future values replays them all:
the result is exactly the state reached by setting them one after another. -/
theorem redo_future : ∀ (xs : List (List TimelineSegment))
    (p : List (List TimelineSegment)) (c : List TimelineSegment),
    redo^[xs.length] (⟨p, c, xs⟩ : HistoryState) = applySets ⟨p, c, []⟩ xs
  | [], p, c => rfl
  | x :: xs, p, c => by
      rw [List.length_cons, Function.iterate_succ_apply]
      rw [show redo ⟨p, c, x :: xs⟩ = (⟨p ++ [c], x, xs⟩ : HistoryState) from rfl]
      rw [redo_future xs (p ++ [c]) x]
      rfl

/-- C3 (confirmed): starting from the initial history state on `s0`, after any
chain of `N` mutations applied through the setter, `N` undos restore the
initial sequence `s0`, and `N` redos after that restore the sequence that held
after the `N`-th mutation (no setter call in between). -/
theorem undo_redo_roundtrip (s0 : List TimelineSegment)
    (xs : List (List TimelineSegment)) :
    (undo^[xs.length] (applySets ⟨[], s0, []⟩ xs)).present = s0 ∧
    (redo^[xs.length] (undo^[xs.length] (applySets ⟨[], s0, []⟩ xs))).present =
      (applySets ⟨[], s0, []⟩ xs).present := by
  cases hxs : xs with
  | nil => exact ⟨rfl, rfl⟩
  | cons y ys =>
      have hne : xs ≠ [] := by rw [hxs]; exact List.cons_ne_nil y ys
      rw [← hxs, undo_applySets xs hne [] s0 []]
      refine ⟨rfl, ?_⟩
      rw [redo_future xs [] s0]

/-! ### The playhead resolver (`getCurrentSegmentAndOffset` in App) -/

/-- A segment's local duration `range.end - range.start`. -/
def segDur (s : TimelineSegment) : ℚ :=
  s.range.«end» - s.range.start

/-- The accumulation loop of `getCurrentSegmentAndOffset`: walks the sequence
carrying the running global start `accumulated` (the `duration` local of the
source is inlined). -/
def resolveLoop : List TimelineSegment → ℚ → ℚ → Option (TimelineSegment × ℚ)
  | [], _, _ => none
  | seg :: rest, time, accumulated =>
      if accumulated ≤ time ∧ time < accumulated + (seg.range.«end» - seg.range.start) then
        some (seg, time - accumulated)
      else resolveLoop rest time (accumulated + (seg.range.«end» - seg.range.start))

/-- Model of `getCurrentSegmentAndOffset` from App: resolve a global time against the
timeline sequence, starting with `accumulated = 0`. -/
def getCurrentSegmentAndOffset (l : List TimelineSegment) (time : ℚ) :
    Option (TimelineSegment × ℚ) :=
  resolveLoop l time 0

/-- Model of `totalDuration` from App:
`segments.reduce((acc, seg) => acc + (seg.range.end - seg.range.start), 0)`. -/
def totalDuration (l : List TimelineSegment) : ℚ :=
  l.foldl (fun acc seg => acc + (seg.range.«end» - seg.range.start)) 0

/-- The global start of the `k`-th segment: the sum of the local durations of
the segments before it. -/
def accStart (l : List TimelineSegment) (k : ℕ) : ℚ :=
  ((l.take k).map segDur).sum

theorem foldl_add_durations : ∀ (l : List TimelineSegment) (a : ℚ),
    l.foldl (fun acc seg => acc + (seg.range.«end» - seg.range.start)) a =
      a + (l.map segDur).sum
  | [], a => by simp
  | s :: t, a => by
      simp only [List.foldl_cons, List.map_cons, List.sum_cons, foldl_add_durations t]
      show a + (s.range.«end» - s.range.start) + _ = _
      rw [segDur]
      ring

theorem totalDuration_eq (l : List TimelineSegment) :
    totalDuration l = (l.map segDur).sum := by
  rw [totalDuration, foldl_add_durations, zero_add]

theorem accStart_zero (l : List TimelineSegment) : accStart l 0 = 0 := by
  simp [accStart]

theorem accStart_succ_cons (s : TimelineSegment) (rest : List TimelineSegment) (k : ℕ) :
    accStart (s :: rest) (k + 1) = segDur s + accStart rest k := by
  simp [accStart, List.take_succ_cons]

/-- The resolver returns `none` exactly when the time is before the window
starting at `acc`, at or past its end, or the list is empty (for nonnegative
durations). -/
theorem resolveLoop_none_iff : ∀ (l : List TimelineSegment) (t acc : ℚ),
    (∀ s ∈ l, 0 ≤ segDur s) →
    (resolveLoop l t acc = none ↔ t < acc ∨ acc + (l.map segDur).sum ≤ t ∨ l = [])
  | [], t, acc, _ => by simp [resolveLoop]
  | s :: rest, t, acc, hd => by
      have hrest : ∀ x ∈ rest, 0 ≤ segDur x := fun x hx => hd x (List.mem_cons_of_mem _ hx)
      have hs0 : 0 ≤ segDur s := hd s (List.mem_cons_self _ _)
      have hsum : 0 ≤ (rest.map segDur).sum := by
        apply List.sum_nonneg
        intro x hx
        obtain ⟨y, hy, rfl⟩ := List.mem_map.mp hx
        exact hrest y hy
      rw [show segDur s = s.range.«end» - s.range.start from rfl] at hs0
      by_cases hc : acc ≤ t ∧ t < acc + (s.range.«end» - s.range.start)
      · simp only [resolveLoop, if_pos hc]
        simp only [List.map_cons, List.sum_cons]
        rw [show segDur s = s.range.«end» - s.range.start from rfl]
        constructor
        · intro h
          cases h
        · rintro (h | h | h)
          · linarith [hc.1]
          · linarith [hc.2]
          · cases h
      · simp only [resolveLoop, if_neg hc]
        rw [resolveLoop_none_iff rest t (acc + (s.range.«end» - s.range.start)) hrest]
        simp only [List.map_cons, List.sum_cons]
        rw [show segDur s = s.range.«end» - s.range.start from rfl]
        rcases not_and_or.mp hc with h1 | h2
        · have ht : t < acc := lt_of_not_le h1
          constructor
          · intro _
            exact Or.inl ht
          · intro _
            exact Or.inl (by linarith)
        · have ht : acc + (s.range.«end» - s.range.start) ≤ t := le_of_not_lt h2
          constructor
          · rintro (h | h | rfl)
            · linarith
            · exact Or.inr (Or.inl (by linarith))
            · exact Or.inr (Or.inl (by simp; linarith))
          · rintro (h | h | h)
            · linarith
            · cases hre : rest with
              | nil => exact Or.inr (Or.inr rfl)
              | cons y ys =>
                  rw [hre] at h
                  exact Or.inr (Or.inl (by linarith))
            · cases h
  termination_by l => l.length

/-- When the resolver finds a segment, it is the first one whose accumulated
window contains the time, and the offset is the time minus the window
start. -/
theorem resolveLoop_some_spec : ∀ (l : List TimelineSegment) (t acc : ℚ)
    (seg : TimelineSegment) (off : ℚ),
    resolveLoop l t acc = some (seg, off) →
    ∃ k, ∃ hk : k < l.length,
      seg = l.get ⟨k, hk⟩ ∧
      acc + accStart l k ≤ t ∧
      t < acc + accStart l k + segDur (l.get ⟨k, hk⟩) ∧
      off = t - (acc + accStart l k) ∧
      ∀ j (hj : j < k), ¬ (acc + accStart l j ≤ t ∧
        t < acc + accStart l j + segDur (l.get ⟨j, lt_trans hj hk⟩))
  | [], t, acc, seg, off, h => by simp [resolveLoop] at h
  | s :: rest, t, acc, seg, off, h => by
      by_cases hc : acc ≤ t ∧ t < acc + (s.range.«end» - s.range.start)
      · simp only [resolveLoop, if_pos hc, Option.some.injEq, Prod.mk.injEq] at h
        obtain ⟨rfl, rfl⟩ := h
        refine ⟨0, Nat.succ_pos _, rfl, ?_, ?_, ?_, ?_⟩
        · rw [accStart_zero]
          linarith [hc.1]
        · rw [accStart_zero]
          have := hc.2
          show t < acc + 0 + segDur s
          rw [show segDur s = s.range.«end» - s.range.start from rfl]
          linarith
        · rw [accStart_zero]
          ring
        · intro j hj
          exact absurd hj (Nat.not_lt_zero j)
      · simp only [resolveLoop, if_neg hc] at h
        obtain ⟨k, hk, h1, h2, h3, h4, h5⟩ :=
          resolveLoop_some_spec rest t (acc + (s.range.«end» - s.range.start)) seg off h
        have hds : segDur s = s.range.«end» - s.range.start := rfl
        refine ⟨k + 1, Nat.succ_lt_succ hk, ?_, ?_, ?_, ?_, ?_⟩
        · simpa using h1
        · rw [accStart_succ_cons, hds]
          linarith
        · rw [accStart_succ_cons, hds]
          show t < acc + ((s.range.«end» - s.range.start) + accStart rest k) +
            segDur ((s :: rest).get ⟨k + 1, Nat.succ_lt_succ hk⟩)
          have hgs : (s :: rest).get ⟨k + 1, Nat.succ_lt_succ hk⟩ = rest.get ⟨k, hk⟩ := by
            simp
          rw [hgs]
          linarith
        · rw [accStart_succ_cons, hds]
          rw [h4]
          ring
        · intro j hj
          cases j with
          | zero =>
              rw [accStart_zero]
              intro hcontra
              apply hc
              constructor
              · linarith [hcontra.1]
              · have := hcontra.2
                rw [show segDur ((s :: rest).get ⟨0, _⟩) =
                  s.range.«end» - s.range.start from rfl] at this
                linarith
          | succ j' =>
              have hj' : j' < k := Nat.lt_of_succ_lt_succ hj
              have hprev := h5 j' hj'
              rw [accStart_succ_cons, hds]
              intro hcontra
              apply hprev
              simp only [List.get_cons_succ] at hcontra
              constructor
              · linarith [hcontra.1]
              · linarith [hcontra.2]
  termination_by l => l.length

/-- C4 (confirmed, for segments satisfying the `TimeRange` invariant
`start ≤ end`): the resolver returns the first segment whose accumulated
window `[accStart, accStart + duration)` contains `globalTime`, paired with
`offset = globalTime - accStart`, and returns `none` exactly when the time is
negative, at or past the total duration, or the sequence is empty (so at an
exact boundary the later segment wins, with offset 0). -/
theorem getCurrentSegmentAndOffset_spec (l : List TimelineSegment)
    (hd : ∀ s ∈ l, s.range.start ≤ s.range.«end») (t : ℚ) :
    (getCurrentSegmentAndOffset l t = none ↔ t < 0 ∨ totalDuration l ≤ t ∨ l = []) ∧
    (∀ seg off, getCurrentSegmentAndOffset l t = some (seg, off) →
      ∃ k, ∃ hk : k < l.length,
        seg = l.get ⟨k, hk⟩ ∧
        accStart l k ≤ t ∧
        t < accStart l k + segDur (l.get ⟨k, hk⟩) ∧
        off = t - accStart l k ∧
        ∀ j (hj : j < k), ¬ (accStart l j ≤ t ∧
          t < accStart l j + segDur (l.get ⟨j, lt_trans hj hk⟩))) := by
  have hd' : ∀ s ∈ l, 0 ≤ segDur s := by
    intro s hs
    have := hd s hs
    rw [show segDur s = s.range.«end» - s.range.start from rfl]
    linarith
  constructor
  · have h := resolveLoop_none_iff l t 0 hd'
    rw [zero_add] at h
    rw [getCurrentSegmentAndOffset, totalDuration_eq]
    exact h
  · intro seg off h
    obtain ⟨k, hk, h1, h2, h3, h4, h5⟩ := resolveLoop_some_spec l t 0 seg off h
    rw [zero_add] at h2 h3 h4
    refine ⟨k, hk, h1, h2, h3, h4, ?_⟩
    intro j hj
    have := h5 j hj
    rw [zero_add] at this
    exact this

/-- A concrete two-segment sequence of local durations 5s and 3s. -/
def exampleSeq : List TimelineSegment :=
  [⟨"s1", "c1", ⟨0, 5⟩, false, 50, "#60A5FA", "clip", none⟩,
   ⟨"s2", "c1", ⟨10, 13⟩, false, 50, "#60A5FA", "clip", none⟩]

/-- Witness for C4 at the boundary time `t = 5` of `exampleSeq`. -/
theorem getCurrentSegmentAndOffset_spec_witness :
    (∀ s ∈ exampleSeq, s.range.start ≤ s.range.«end») ∧
    ((getCurrentSegmentAndOffset exampleSeq 5 = none ↔
        (5:ℚ) < 0 ∨ totalDuration exampleSeq ≤ 5 ∨ exampleSeq = []) ∧
      (∀ seg off, getCurrentSegmentAndOffset exampleSeq 5 = some (seg, off) →
        ∃ k, ∃ hk : k < exampleSeq.length,
          seg = exampleSeq.get ⟨k, hk⟩ ∧
          accStart exampleSeq k ≤ 5 ∧
          (5:ℚ) < accStart exampleSeq k + segDur (exampleSeq.get ⟨k, hk⟩) ∧
          off = 5 - accStart exampleSeq k ∧
          ∀ j (hj : j < k), ¬ (accStart exampleSeq j ≤ 5 ∧
            (5:ℚ) < accStart exampleSeq j + segDur (exampleSeq.get ⟨j, lt_trans hj hk⟩)))) :=
  ⟨by
    intro s hs
    simp only [exampleSeq, List.mem_cons, List.not_mem_nil, or_false] at hs
    rcases hs with rfl | rfl <;> norm_num,
  getCurrentSegmentAndOffset_spec exampleSeq
    (by
      intro s hs
      simp only [exampleSeq, List.mem_cons, List.not_mem_nil, or_false] at hs
      rcases hs with rfl | rfl <;> norm_num)
    5⟩

/-! ### Timeline operations: split and delete (App) -/

/-- The `findIndex` scan of `handleSplit`: locates the segment under the
playhead with the same accumulated-window condition as the resolver. -/
def findTargetIndex : List TimelineSegment → ℚ → ℚ → Option ℕ
  | [], _, _ => none
  | seg :: rest, time, accumulated =>
      if accumulated ≤ time ∧ time < accumulated + (seg.range.«end» - seg.range.start) then
        some 0
      else
        (findTargetIndex rest time
          (accumulated + (seg.range.«end» - seg.range.start))).map (· + 1)

/-- Model of `handleSplit` from App. `none` models the handler returning without
calling the setter (no segment under the playhead, or the offset within 0.1s
of a boundary); otherwise the new list (the target replaced by the two
pieces, which carry the two freshly generated ids) and the id of the later
piece (auto-selected by the caller). -/
def handleSplit (l : List TimelineSegment) (timelineTime : ℚ) (id1 id2 : String) :
    Option (List TimelineSegment × String) :=
  match findTargetIndex l timelineTime 0 with
  | none => none
  | some i =>
      match l.get? i with
      | none => none
      | some originalSeg =>
          let segmentStartTime := totalDuration (l.take i)
          let offset := timelineTime - segmentStartTime
          if offset < 1/10 ∨ offset > segDur originalSeg - 1/10 then none
          else
            let splitPoint := originalSeg.range.start + offset
            let newSeg1 : TimelineSegment :=
              { originalSeg with
                id := id1,
                range := { originalSeg.range with «end» := splitPoint } }
            let newSeg2 : TimelineSegment :=
              { originalSeg with
                id := id2,
                range := { originalSeg.range with start := splitPoint } }
            some (l.take i ++ newSeg1 :: newSeg2 :: l.drop (i + 1), id2)

/-- The split handler at the app level: on success the new list goes through
the history setter, otherwise the state is untouched. -/
def handleSplitApp (st : HistoryState) (t : ℚ) (id1 id2 : String) : HistoryState :=
  match handleSplit st.present t id1 id2 with
  | none => st
  | some (newSegments, _) => pushState st newSegments

/-- Model of `handleDelete` from App: no-op when nothing is selected; otherwise
`setTimelineSegments(prev => prev.filter(seg => seg.id !== selectedSegmentId))`
— the setter is always called, even when the filter removes nothing. -/
def handleDelete (st : HistoryState) (selectedSegmentId : Option String) : HistoryState :=
  match selectedSegmentId with
  | none => st
  | some sid => pushState st (st.present.filter (fun seg => seg.id ≠ sid))

/-- The resolver and the split handler's `findIndex` scan agree: the resolver
finds `(seg, off)` exactly when `findIndex` finds an index holding `seg`
whose accumulated start is `t - off`. -/
theorem resolveLoop_eq_some_iff_find : ∀ (l : List TimelineSegment) (t acc : ℚ)
    (seg : TimelineSegment) (off : ℚ),
    resolveLoop l t acc = some (seg, off) ↔
      ∃ i, findTargetIndex l t acc = some i ∧ l.get? i = some seg ∧
        off = t - (acc + ((l.take i).map segDur).sum)
  | [], t, acc, seg, off => by simp [resolveLoop, findTargetIndex]
  | s :: rest, t, acc, seg, off => by
      by_cases hc : acc ≤ t ∧ t < acc + (s.range.«end» - s.range.start)
      · simp only [resolveLoop, findTargetIndex, if_pos hc]
        constructor
        · intro h
          simp only [Option.some.injEq, Prod.mk.injEq] at h
          obtain ⟨rfl, rfl⟩ := h
          exact ⟨0, rfl, rfl, by simp⟩
        · rintro ⟨i, hi, hget, hoff⟩
          simp only [Option.some.injEq] at hi
          subst hi
          simp only [List.get?] at hget
          simp only [Option.some.injEq] at hget
          subst hget
          simp only [List.take_zero, List.map_nil, List.sum_nil, add_zero] at hoff
          rw [hoff]
      · simp only [resolveLoop, findTargetIndex, if_neg hc]
        rw [resolveLoop_eq_some_iff_find rest t (acc + (s.range.«end» - s.range.start)) seg off]
        constructor
        · rintro ⟨j, hj, hget, hoff⟩
          refine ⟨j + 1, by rw [hj]; rfl, by simpa using hget, ?_⟩
          rw [hoff, List.take_succ_cons, List.map_cons, List.sum_cons]
          have : segDur s = s.range.«end» - s.range.start := rfl
          rw [this]
          ring_nf
        · rintro ⟨i, hi, hget, hoff⟩
          rcases i with _ | j
          · simp at hi
          · refine ⟨j, by simpa using hi, by simpa using hget, ?_⟩
            rw [hoff, List.take_succ_cons, List.map_cons, List.sum_cons]
            have : segDur s = s.range.«end» - s.range.start := rfl
            rw [this]
            ring_nf
  termination_by l => l.length

theorem findTargetIndex_lt_length : ∀ (l : List TimelineSegment) (t acc : ℚ) (i : ℕ),
    findTargetIndex l t acc = some i → i < l.length
  | [], _, _, _, h => by simp [findTargetIndex] at h
  | s :: rest, t, acc, i, h => by
      by_cases hc : acc ≤ t ∧ t < acc + (s.range.«end» - s.range.start)
      · simp only [findTargetIndex, if_pos hc, Option.some.injEq] at h
        subst h
        exact Nat.succ_pos _
      · simp only [findTargetIndex, if_neg hc, Option.map_eq_some'] at h
        obtain ⟨j, hj, rfl⟩ := h
        exact Nat.succ_lt_succ
          (findTargetIndex_lt_length rest t (acc + (s.range.«end» - s.range.start)) j hj)

/-- C5 (confirmed): when the playhead resolves to a segment at a valid
interior offset (at least 0.1s from both of its boundaries), split replaces
that one segment with exactly two pieces carrying the two fresh ids; their
local durations sum to the original duration (the first piece's duration is
the offset), every other field of both pieces equals the original's, and the
sequence's total duration is unchanged (its length grows by one). -/
theorem handleSplit_spec (l : List TimelineSegment) (t : ℚ) (id1 id2 : String)
    (i : ℕ) (orig : TimelineSegment)
    (hfind : findTargetIndex l t 0 = some i)
    (horig : l.get? i = some orig)
    (h1 : 1/10 ≤ t - accStart l i)
    (h2 : t - accStart l i ≤ segDur orig - 1/10) :
    ∃ s1 s2 : TimelineSegment,
      handleSplit l t id1 id2 = some (l.take i ++ s1 :: s2 :: l.drop (i + 1), id2) ∧
      s1.id = id1 ∧ s2.id = id2 ∧
      segDur s1 + segDur s2 = segDur orig ∧
      segDur s1 = t - accStart l i ∧
      s1.range.start = orig.range.start ∧
      s2.range.«end» = orig.range.«end» ∧
      s1.range.«end» = s2.range.start ∧
      s1.clipId = orig.clipId ∧ s2.clipId = orig.clipId ∧
      s1.isBest = orig.isBest ∧ s2.isBest = orig.isBest ∧
      s1.score = orig.score ∧ s2.score = orig.score ∧
      s1.color = orig.color ∧ s2.color = orig.color ∧
      s1.name = orig.name ∧ s2.name = orig.name ∧
      s1.transcript = orig.transcript ∧ s2.transcript = orig.transcript ∧
      totalDuration (l.take i ++ s1 :: s2 :: l.drop (i + 1)) = totalDuration l ∧
      (l.take i ++ s1 :: s2 :: l.drop (i + 1)).length = l.length + 1 := by
  have hacc : totalDuration (l.take i) = accStart l i := by
    rw [totalDuration_eq]
    rfl
  have hi : i < l.length := findTargetIndex_lt_length l t 0 i hfind
  have hguard : ¬ (t - totalDuration (l.take i) < 1/10 ∨
      t - totalDuration (l.take i) > segDur orig - 1/10) := by
    rw [hacc]
    push_neg
    exact ⟨h1, h2⟩
  refine ⟨{ orig with
            id := id1,
            range := { orig.range with
              «end» := orig.range.start + (t - totalDuration (l.take i)) } },
          { orig with
            id := id2,
            range := { orig.range with
              start := orig.range.start + (t - totalDuration (l.take i)) } },
          ?_, rfl, rfl, ?_, ?_, rfl, rfl, rfl, rfl, rfl, rfl, rfl, rfl, rfl,
          rfl, rfl, rfl, rfl, rfl, rfl, ?_, ?_⟩
  · simp only [handleSplit, hfind, horig]
    rw [if_neg hguard]
  · show (orig.range.start + (t - totalDuration (l.take i))) - orig.range.start +
      (orig.range.«end» - (orig.range.start + (t - totalDuration (l.take i)))) =
        orig.range.«end» - orig.range.start
    ring
  · show (orig.range.start + (t - totalDuration (l.take i))) - orig.range.start =
      t - accStart l i
    rw [hacc]
    ring
  · have hdrop : l.drop i = orig :: l.drop (i + 1) := by
      obtain ⟨hi', hget⟩ := List.get?_eq_some.mp horig
      rw [List.drop_eq_getElem_cons hi']
      rw [show l[i] = l.get ⟨i, hi'⟩ from rfl, hget]
    have hsplit : segDur { orig with
          id := id1,
          range := { orig.range with
            «end» := orig.range.start + (t - totalDuration (l.take i)) } } +
        segDur { orig with
          id := id2,
          range := { orig.range with
            start := orig.range.start + (t - totalDuration (l.take i)) } } =
          segDur orig := by
      show (orig.range.start + (t - totalDuration (l.take i))) - orig.range.start +
        ((orig.range.«end» - (orig.range.start + (t - totalDuration (l.take i))))) =
          orig.range.«end» - orig.range.start
      ring
    have hl2 : totalDuration l = ((l.take i).map segDur).sum +
        (segDur orig + ((l.drop (i + 1)).map segDur).sum) := by
      conv_lhs => rw [← List.take_append_drop i l, hdrop]
      rw [totalDuration_eq, List.map_append, List.sum_append, List.map_cons,
        List.sum_cons]
    rw [hl2, totalDuration_eq, List.map_append, List.sum_append, List.map_cons,
      List.sum_cons, List.map_cons, List.sum_cons]
    linarith [hsplit]
  · rw [List.length_append, List.length_cons, List.length_cons, List.length_take,
      List.length_drop]
    omega

/-- Witness for C5: splitting `exampleSeq` at global time 2 (inside the first
segment, 2s and 3s away from its boundaries). -/
theorem handleSplit_spec_witness :
    ∃ s1 s2 : TimelineSegment,
      handleSplit exampleSeq 2 "n1" "n2" =
        some (exampleSeq.take 0 ++ s1 :: s2 :: exampleSeq.drop 1, "n2") ∧
      segDur s1 + segDur s2 =
        segDur ⟨"s1", "c1", ⟨0, 5⟩, false, 50, "#60A5FA", "clip", none⟩ ∧
      totalDuration (exampleSeq.take 0 ++ s1 :: s2 :: exampleSeq.drop 1) =
        totalDuration exampleSeq := by
  obtain ⟨s1, s2, heq, _, _, hsum, _, _, _, _, _, _, _, _, _, _, _, _, _, _, _, _,
    htot, _⟩ :=
    handleSplit_spec exampleSeq 2 "n1" "n2" 0
      ⟨"s1", "c1", ⟨0, 5⟩, false, 50, "#60A5FA", "clip", none⟩
      (by norm_num [findTargetIndex, exampleSeq])
      rfl
      (by norm_num [accStart])
      (by norm_num [accStart, segDur])
  exact ⟨s1, s2, heq, hsum, htot⟩

/-- C8 (confirmed): when the playhead resolves to a segment at a local offset
strictly within 0.1s of either of that segment's boundaries, the split
handler is a silent no-op: it returns before calling the history setter, so
the whole app state — the present sequence and both history stacks — is
unchanged. -/
theorem handleSplitApp_noop (st : HistoryState) (t : ℚ) (id1 id2 : String)
    (seg : TimelineSegment) (off : ℚ)
    (hres : getCurrentSegmentAndOffset st.present t = some (seg, off))
    (hclose : off < 1/10 ∨ off > segDur seg - 1/10) :
    handleSplitApp st t id1 id2 = st := by
  obtain ⟨i, hfind, hget, hoff⟩ :=
    (resolveLoop_eq_some_iff_find st.present t 0 seg off).mp hres
  have hofft : t - totalDuration (st.present.take i) = off := by
    rw [totalDuration_eq, hoff]
    ring
  have hnone : handleSplit st.present t id1 id2 = none := by
    simp only [handleSplit, hfind, hget]
    rw [if_pos (by rw [hofft]; exact hclose)]
  simp only [handleSplitApp, hnone]

/-- Witness for C8: trying to split `exampleSeq` at global time 0.01 (offset
0.01 < 0.1 into the first segment) leaves the app state untouched. -/
theorem handleSplitApp_noop_witness :
    handleSplitApp ⟨[], exampleSeq, []⟩ (1/100) "a" "b" = ⟨[], exampleSeq, []⟩ :=
  handleSplitApp_noop ⟨[], exampleSeq, []⟩ (1/100) "a" "b"
    ⟨"s1", "c1", ⟨0, 5⟩, false, 50, "#60A5FA", "clip", none⟩ (1/100)
    (by norm_num [getCurrentSegmentAndOffset, resolveLoop, exampleSeq])
    (Or.inl (by norm_num))

/-- When the deleted id is nowhere in the list, the filter keeps every
element, so the resulting list is the unchanged input. -/
theorem filter_ne_of_not_mem (l : List TimelineSegment) (sid : String)
    (h : sid ∉ l.map TimelineSegment.id) :
    l.filter (fun seg => seg.id ≠ sid) = l := by
  apply List.filter_eq_self.mpr
  intro a ha
  simp only [ne_eq, decide_not, Bool.not_eq_true', decide_eq_false_iff_not,
    Decidable.not_not]
  intro heq
  exact h (heq ▸ List.mem_map_of_mem TimelineSegment.id ha)

/-- With pairwise-distinct ids, deleting the id found at position `k` removes
exactly that entry and keeps every other entry unchanged, in order. -/
theorem filter_ne_eraseIdx : ∀ (l : List TimelineSegment) (sid : String),
    (l.map TimelineSegment.id).Nodup →
    ∀ k, (hk : k < l.length) → (l.get ⟨k, hk⟩).id = sid →
    l.filter (fun seg => seg.id ≠ sid) = l.take k ++ l.drop (k + 1)
  | [], _, _, k, hk, _ => absurd hk (Nat.not_lt_zero k)
  | a :: t, sid, hnd, 0, _, hid => by
      have hid' : a.id = sid := hid
      have hnd' : (∀ x ∈ t, ¬ x.id = a.id) ∧ (List.map TimelineSegment.id t).Nodup := by
        simpa using hnd
      rw [List.filter_cons_of_neg (by simp [hid'])]
      simp only [List.take_zero, List.nil_append, List.drop_succ_cons, List.drop_zero]
      apply List.filter_eq_self.mpr
      intro x hx
      simp only [ne_eq, decide_not, Bool.not_eq_true', decide_eq_false_iff_not,
        Decidable.not_not]
      intro heq
      exact absurd (heq.trans hid'.symm) (hnd'.1 x hx)
  | a :: t, sid, hnd, k + 1, hk, hid => by
      have hkt : k < t.length := Nat.lt_of_succ_lt_succ hk
      have hid' : (t.get ⟨k, hkt⟩).id = sid := by simpa using hid
      have hnd' : (∀ x ∈ t, ¬ x.id = a.id) ∧ (List.map TimelineSegment.id t).Nodup := by
        simpa using hnd
      have hasid : ¬ a.id = sid := by
        intro h
        exact absurd (hid'.trans h.symm) (hnd'.1 _ (List.get_mem _ _ _))
      rw [List.filter_cons_of_pos (by simp [hasid])]
      rw [List.take_succ_cons, List.drop_succ_cons, List.cons_append]
      congr 1
      exact filter_ne_eraseIdx t sid hnd'.2 k hkt hid'

/-- C9 (amended): delete filters out exactly the segments whose id matches
(with pairwise-distinct ids, exactly the one entry at the id's position,
leaving every other segment and its id unchanged, in order), and when no
segment has the id the present list is unchanged in value — but the handler
is not a history-level no-op: the setter still runs, so `past` gains an entry
and `future` is cleared (the claim's "no state change observable through the
history" is false; see the counterexample). -/
theorem handleDelete_spec (st : HistoryState) (sid : String) :
    (handleDelete st (some sid)).present = st.present.filter (fun seg => seg.id ≠ sid) ∧
    (handleDelete st (some sid)).past = st.past ++ [st.present] ∧
    (handleDelete st (some sid)).future = [] ∧
    (sid ∉ st.present.map TimelineSegment.id →
      (handleDelete st (some sid)).present = st.present) ∧
    ((st.present.map TimelineSegment.id).Nodup →
      ∀ k, (hk : k < st.present.length) → (st.present.get ⟨k, hk⟩).id = sid →
        (handleDelete st (some sid)).present =
          st.present.take k ++ st.present.drop (k + 1)) := by
  refine ⟨rfl, rfl, rfl, ?_, ?_⟩
  · intro h
    exact filter_ne_of_not_mem _ _ h
  · intro hnd k hk hid
    exact filter_ne_eraseIdx _ _ hnd k hk hid

/-- C9 counterexample: deleting an id that no segment carries leaves the
segment list unchanged in value but is not a no-op on the app state: the
setter still pushes a history snapshot (`past` grows), which is observable
through undo. -/
theorem handleDelete_missing_id_cex :
    (handleDelete ⟨[], exampleSeq, []⟩ (some "zzz")).present = exampleSeq ∧
    handleDelete ⟨[], exampleSeq, []⟩ (some "zzz") ≠ ⟨[], exampleSeq, []⟩ := by
  constructor
  · exact filter_ne_of_not_mem exampleSeq "zzz" (by simp [exampleSeq])
  · intro h
    have hp := congrArg HistoryState.past h
    simp [handleDelete, pushState] at hp

/-- Witness for C9: deleting `"s1"` from `exampleSeq` removes exactly the
first entry. -/
theorem handleDelete_spec_witness :
    (handleDelete ⟨[], exampleSeq, []⟩ (some "s1")).present =
      exampleSeq.take 0 ++ exampleSeq.drop 1 :=
  (handleDelete_spec ⟨[], exampleSeq, []⟩ "s1").2.2.2.2
    (by simp [exampleSeq]) 0 (by norm_num [exampleSeq]) rfl

/-! ### Transcript word generation (transcript editor) -/

/-- The composite `transcript.split(/(\s+)/).filter(w => w.trim())`: splitting
on a captured whitespace group keeps the separator runs, and the `trim`
filter then drops them along with empty pieces, leaving exactly the maximal
non-whitespace runs, in order. `acc` holds the current run, reversed. -/
def splitWsAux : List Char → List Char → List String
  | [], acc => if acc.isEmpty then [] else [String.mk acc.reverse]
  | c :: rest, acc =>
      if c.isWhitespace then
        if acc.isEmpty then splitWsAux rest []
        else String.mk acc.reverse :: splitWsAux rest []
      else splitWsAux rest (c :: acc)

def splitWs (s : String) : List String :=
  splitWsAux s.toList []

/-- The `FILLER_WORDS` set of the transcript editor. -/
def FILLER_WORDS : List String :=
  ["嗯", "啊", "呃", "额", "那个", "就是", "然后", "对吧", "是吧", "这个", "所以说",
   "um", "uh", "like", "you know", "so", "basically", "actually", "literally"]

/-- The cleanup `text.toLowerCase().replace(/[.,!?，。！？]/g, '')`. -/
def cleanText (s : String) : String :=
  String.mk (s.toLower.toList.filter
    (fun c => !(['.', ',', '!', '?', '，', '。', '！', '？'].contains c)))

/-- Model of `generateWordsFromTranscript` from the transcript editor: an empty (falsy)
transcript yields no words; otherwise each whitespace-separated word gets an
equal share of the segment's range. (When the transcript is all whitespace,
`rawWords` is empty: the JS `duration / 0 = Infinity` is never observed since
the map runs over the empty list; `ℚ` division by zero gives 0, equally
unobserved.) -/
def generateWordsFromTranscript (transcript : String) (segmentStart segmentEnd : ℚ)
    (segmentId : String) : List TranscriptWord :=
  if transcript = "" then []
  else
    let rawWords := splitWs transcript
    let duration := segmentEnd - segmentStart
    let wordDuration := duration / (rawWords.length : ℚ)
    rawWords.enum.map (fun p =>
      { id := segmentId ++ "-word-" ++ toString p.1
        text := p.2
        start := segmentStart + (p.1 : ℚ) * wordDuration
        «end» := segmentStart + ((p.1 : ℚ) + 1) * wordDuration
        isDeleted := false
        isFiller := FILLER_WORDS.contains (cleanText p.2) })

theorem generateWords_length (transcript : String) (s e : ℚ) (sid : String)
    (ht : transcript ≠ "") :
    (generateWordsFromTranscript transcript s e sid).length = (splitWs transcript).length := by
  rw [generateWordsFromTranscript, if_neg ht]
  simp

theorem generateWords_get (transcript : String) (s e : ℚ) (sid : String)
    (ht : transcript ≠ "") (i : ℕ)
    (hi : i < (generateWordsFromTranscript transcript s e sid).length)
    (hi' : i < (splitWs transcript).length) :
    (generateWordsFromTranscript transcript s e sid).get ⟨i, hi⟩ =
      { id := sid ++ "-word-" ++ toString i
        text := (splitWs transcript).get ⟨i, hi'⟩
        start := s + (i : ℚ) * ((e - s) / ((splitWs transcript).length : ℚ))
        «end» := s + ((i : ℚ) + 1) * ((e - s) / ((splitWs transcript).length : ℚ))
        isDeleted := false
        isFiller := FILLER_WORDS.contains (cleanText ((splitWs transcript).get ⟨i, hi'⟩)) } := by
  have hg : generateWordsFromTranscript transcript s e sid =
      (splitWs transcript).enum.map (fun p =>
        ({ id := sid ++ "-word-" ++ toString p.1
           text := p.2
           start := s + (p.1 : ℚ) * ((e - s) / ((splitWs transcript).length : ℚ))
           «end» := s + ((p.1 : ℚ) + 1) * ((e - s) / ((splitWs transcript).length : ℚ))
           isDeleted := false
           isFiller := FILLER_WORDS.contains (cleanText p.2) } : TranscriptWord)) := by
    rw [generateWordsFromTranscript, if_neg ht]
  rw [List.get_eq_getElem]
  simp only [hg, List.getElem_map, List.getElem_enum]
  simp only [List.get_eq_getElem]

/-- C10 (amended): for every transcript containing at least one
(whitespace-separated) word, the derived word list partitions the segment's
range exactly and uniformly: the first word starts at the range start, each
word's end equals the next word's start, every word's duration is the range
length divided by the word count, the last word's end equals the range end,
and every word has `isDeleted = false`; an empty transcript yields an empty
list. (For a non-empty but all-whitespace transcript the claim fails: the
word list is empty; see the counterexample.) -/
theorem generateWordsFromTranscript_partition (transcript : String) (s e : ℚ)
    (sid : String) (h : splitWs transcript ≠ []) :
    generateWordsFromTranscript transcript s e sid ≠ [] ∧
    (∀ hi : 0 < (generateWordsFromTranscript transcript s e sid).length,
      ((generateWordsFromTranscript transcript s e sid).get ⟨0, hi⟩).start = s) ∧
    (∀ i (hi : i < (generateWordsFromTranscript transcript s e sid).length)
        (hi1 : i + 1 < (generateWordsFromTranscript transcript s e sid).length),
      ((generateWordsFromTranscript transcript s e sid).get ⟨i, hi⟩).«end» =
        ((generateWordsFromTranscript transcript s e sid).get ⟨i + 1, hi1⟩).start) ∧
    (∀ i (hi : i < (generateWordsFromTranscript transcript s e sid).length),
      ((generateWordsFromTranscript transcript s e sid).get ⟨i, hi⟩).«end» -
          ((generateWordsFromTranscript transcript s e sid).get ⟨i, hi⟩).start =
        (e - s) / ((generateWordsFromTranscript transcript s e sid).length : ℚ)) ∧
    (∀ hne : generateWordsFromTranscript transcript s e sid ≠ [],
      ((generateWordsFromTranscript transcript s e sid).getLast hne).«end» = e) ∧
    (∀ w ∈ generateWordsFromTranscript transcript s e sid, w.isDeleted = false) ∧
    (∀ s' e' sid', generateWordsFromTranscript "" s' e' sid' = []) := by
  have ht : transcript ≠ "" := by
    intro heq
    apply h
    rw [heq]
    rfl
  have hlen := generateWords_length transcript s e sid ht
  have hpos : 0 < (splitWs transcript).length := List.length_pos.mpr h
  have hne : generateWordsFromTranscript transcript s e sid ≠ [] := by
    intro heq
    rw [heq] at hlen
    simp at hlen
    omega
  have hcastne : ((splitWs transcript).length : ℚ) ≠ 0 := by
    exact_mod_cast Nat.pos_iff_ne_zero.mp hpos
  refine ⟨hne, ?_, ?_, ?_, ?_, ?_, ?_⟩
  · intro hi
    rw [generateWords_get transcript s e sid ht 0 hi (by omega)]
    simp
  · intro i hi hi1
    rw [generateWords_get transcript s e sid ht i hi (by omega),
      generateWords_get transcript s e sid ht (i + 1) hi1 (by omega)]
    push_cast
    ring
  · intro i hi
    rw [generateWords_get transcript s e sid ht i hi (by omega)]
    rw [show ((generateWordsFromTranscript transcript s e sid).length : ℚ) =
      ((splitWs transcript).length : ℚ) from by rw [hlen]]
    ring
  · intro hne'
    rw [List.getLast_eq_get]
    have hl1 : (generateWordsFromTranscript transcript s e sid).length - 1 <
        (generateWordsFromTranscript transcript s e sid).length := by
      omega
    rw [generateWords_get transcript s e sid ht _ hl1 (by omega)]
    show s + (((((generateWordsFromTranscript transcript s e sid).length - 1 : ℕ)) : ℚ) + 1) *
      ((e - s) / ((splitWs transcript).length : ℚ)) = e
    rw [hlen, Nat.cast_sub (by omega)]
    push_cast
    field_simp
  · intro w hw
    obtain ⟨⟨i, hi⟩, hget⟩ := List.mem_iff_get.mp hw
    rw [← hget, generateWords_get transcript s e sid ht i hi (by omega)]
  · intro s' e' sid'
    rfl

/-- C10 counterexample: `" "` is a non-empty transcript, but it contains no
word: the generated word list is empty, so it cannot partition the segment's
range (there is no first or last word). -/
theorem generateWords_whitespace_cex :
    (" " : String) ≠ "" ∧ generateWordsFromTranscript " " 0 10 "seg" = [] := by
  constructor
  · decide
  · rfl

/-- Witness for C10 on the two-word transcript `"a b"` over `[0, 10]`. -/
theorem generateWordsFromTranscript_partition_witness :
    generateWordsFromTranscript "a b" 0 10 "x" ≠ [] ∧
    (∀ hne : generateWordsFromTranscript "a b" 0 10 "x" ≠ [],
      ((generateWordsFromTranscript "a b" 0 10 "x").getLast hne).«end» = 10) :=
  ⟨(generateWordsFromTranscript_partition "a b" 0 10 "x" (by decide)).1,
   (generateWordsFromTranscript_partition "a b" 0 10 "x" (by decide)).2.2.2.2.1⟩

end CutIt
